import Mathlib

/-!
# Verification of the LaBGen-P core pipeline

Shallow embedding of `src/LaBGen-P.cpp` (the driver `main`) together with
models of the library components it calls (`FrameDifferenceC1L1`,
`CounterMotionProba`, `PatchesHistory`), whose headers are not part of the
repository snapshot and are therefore modelled from the specification.

The embedding follows the source line by line:
* parameter extraction and validation (`main`, lines 104-157);
* kernel-size derivation `(min(height, width) / nParam) | 1` (line 201);
* the processing loop with its first-frame skip (lines 222-269);
* terminal aggregation and output (lines 271-281).
-/

namespace LaBGenP

/-! ## Data model -/

/-- A pixel of a `CV_8UC3` frame: three channel values. -/
structure Pix where
  r : Nat
  g : Nat
  b : Nat
deriving DecidableEq, Repr

/-- A frame, addressed as `frame y x` (row, column). -/
abbrev Frame := Nat → Nat → Pix

/-- A single-channel integer map of the same spatial layout as a frame. -/
abbrev RawMap := Nat → Nat → Nat

/-! ## FrameDifferenceC1L1

Modelled from the spec: `FrameDifferenceC1L1.h` is not under `src/`.
Spec 4.1: for each pixel, combine the absolute per-channel differences
between the previous and the current frame into one scalar, monotonic in
per-channel absolute difference and symmetric in the channels (the class
name indicates an L1 combination, i.e. a sum of absolute differences);
the very first frame has no predecessor and produces no motion map. -/

/-- Absolute difference of two natural channel values. -/
def natDist (a b : Nat) : Nat := max a b - min a b

/-- L1 distance between two pixels: sum of absolute channel differences. -/
def pixDist (p q : Pix) : Nat := natDist p.r q.r + natDist p.g q.g + natDist p.b q.b

/-- Raw per-pixel motion indicator between two frames. -/
def frameDiff (prev cur : Frame) : RawMap := fun y x => pixDist (prev y x) (cur y x)

/-- One `process` call of the frame-difference stage: the internal state is
the remembered previous frame; the first call stores the frame and emits no
map, later calls emit the raw difference map and update the stored frame. -/
def fdProcess (prev : Option Frame) (cur : Frame) : Option Frame × Option RawMap :=
  match prev with
  | none => (some cur, none)
  | some p => (some cur, some (frameDiff p cur))

/-! ## Smoothing kernel size (src line 201) -/

/-- The kernel size computed by the driver at line 201:
`(min(height, width) / nParam) | 1` (bitwise or with 1). -/
def kernelSize (H W N : Nat) : Nat := (min H W / N) ||| 1

/-- Rounding down to the nearest value with lowest bit set, as worded by the
claim: an odd value is kept, an even value drops to its predecessor. -/
def oddifyDown (x : Nat) : Nat := if x % 2 = 1 then x else x - 1

/-- The kernel-size formula as worded by the claim (for comparison with
`kernelSize`, which is the one the source computes). -/
def kernelSizeClaim (H W N : Nat) : Nat := max 1 (oddifyDown (min H W / N))

/-- Rounding up to the nearest odd value: setting the lowest bit. -/
def oddifyUp (x : Nat) : Nat := if x % 2 = 1 then x else x + 1

/-! ## CounterMotionProba

Modelled from the spec: `MotionProba.h` is not under `src/`.
Spec 4.2: each output value is the aggregate count of indicator values in a
K-by-K neighborhood centered on the location, with neighborhoods clamped to
the valid region at the borders. -/

/-- Whether the window cell with offsets `(dy, dx)` of a K-by-K window
centered at `(y, x)` lies inside the frame and carries a nonzero raw
indicator. -/
def activeCell (K H W : Nat) (raw : RawMap) (y x dy dx : Nat) : Bool :=
  let ry : Int := (y : Int) + (dy : Int) - ((K / 2 : Nat) : Int)
  let rx : Int := (x : Int) + (dx : Int) - ((K / 2 : Nat) : Int)
  decide (0 ≤ ry) && decide (ry < (H : Int)) && decide (0 ≤ rx) &&
    decide (rx < (W : Int)) && decide (raw ry.toNat rx.toNat ≠ 0)

/-- The motion score at one location: the number of in-bounds cells of the
K-by-K window whose raw indicator is nonzero. -/
def motionScore (K H W : Nat) (raw : RawMap) (y x : Nat) : Nat :=
  ((List.range K).map
    (fun dy => (List.range K).countP (fun dx => activeCell K H W raw y x dy dx))).sum

/-- The full smoothed score map (`CounterMotionProba::compute`). -/
def motionFilter (K H W : Nat) (raw : RawMap) : RawMap :=
  fun y x => motionScore K H W raw y x

/-! ## PatchesHistory

Modelled from the spec: `History.h` is not under `src/`.
Spec 4.3: per region a list of at most `S` candidates in insertion order;
below capacity every candidate is admitted; at capacity the new candidate is
admitted exactly when its score is strictly below the worst held score, and
it then evicts the worst-scored candidate, ties broken towards the oldest. -/

/-- A held candidate: a pixel value together with its motion score.  The
insertion order is the position in the history list. -/
structure Cand (α : Type) where
  val : α
  score : Nat
deriving DecidableEq, Repr

/-- The worst (largest) score held in a history list, `0` for an empty one. -/
def worstScore {α : Type} (h : List (Cand α)) : Nat :=
  (h.map Cand.score).foldr max 0

/-- One insertion into one region's history (spec 4.3). -/
def PatchesHistory.insert {α : Type} (S : Nat) (h : List (Cand α)) (v : α) (s : Nat) :
    List (Cand α) :=
  if h.length < S then h ++ [⟨v, s⟩]
  else if s < worstScore h then
    (h.eraseP (fun c => c.score == worstScore h)) ++ [⟨v, s⟩]
  else h

/-- The history reached from the empty history by a sequence of
`(value, score)` insertions. -/
def runInserts {α : Type} (S : Nat) (ps : List (α × Nat)) : List (Cand α) :=
  ps.foldl (fun h p => PatchesHistory.insert S h p.1 p.2) []

/-- The multiset of scores held by a history. -/
def heldScores {α : Type} (h : List (Cand α)) : Multiset Nat :=
  ↑(h.map Cand.score)

/-- The multiset of scores observed in an insertion sequence. -/
def obsScores {α : Type} (ps : List (α × Nat)) : Multiset Nat :=
  ↑(ps.map Prod.snd)

/-- `held` is exactly the multiset of the `S` (or fewer) lowest elements of
`obs`: it is a sub-multiset, it is as large as capacity and supply allow, and
every element left out dominates every element kept. -/
def IsLowest (S : Nat) (held obs : Multiset Nat) : Prop :=
  held ≤ obs ∧ Multiset.card held = min S (Multiset.card obs) ∧
    ∀ x ∈ obs - held, ∀ y ∈ held, y ≤ x

/-! ## Aggregation (PatchesHistory::median)

Modelled from the spec: `History.h` is not under `src/`.
Spec 4.3: for each region and each channel independently, the median of the
channel values over the held candidates; for an even-sized set, the lower of
the two middle values after sorting; a region with zero held candidates is an
EmptyHistory failure. -/

/-- Ordered insertion of a channel value into a sorted list. -/
def insertSorted (x : Nat) : List Nat → List Nat
  | [] => [x]
  | y :: t => if x ≤ y then x :: y :: t else y :: insertSorted x t

/-- Sorting a list of channel values in nondecreasing order. -/
def sortVals (l : List Nat) : List Nat :=
  l.foldr insertSorted []

/-- The lower median of a list of channel values: the entry at index
`(length - 1) / 2` of the sorted list (`0` only for the empty list, which
aggregation rejects beforehand). -/
def channelMedian (l : List Nat) : Nat :=
  (sortVals l).getD ((l.length - 1) / 2) 0

/-- Failures of the aggregation step. -/
inductive AggError where
  | emptyHistory
deriving DecidableEq, Repr

/-- Per-region aggregation: the channel-wise lower median of the held
candidates, or an EmptyHistory failure when none are held. -/
def PatchesHistory.median (h : List (Cand Pix)) : Except AggError Pix :=
  match h with
  | [] => .error .emptyHistory
  | _ => .ok
      ⟨channelMedian (h.map (fun c => c.val.r)),
       channelMedian (h.map (fun c => c.val.g)),
       channelMedian (h.map (fun c => c.val.b))⟩

/-- The per-region history table: pixel-level ROIs
(`Utils::getROIs(height, width)`, src line 198), one history per pixel. -/
abbrev HistMap := Nat → Nat → List (Cand Pix)

/-- One frame's insertion pass: every region receives the frame's pixel at
that region together with the smoothed score at that region
(`history->insert(filteredProbabilityMap, *it)`, src line 261). -/
def insertAll (S : Nat) (smap : RawMap) (f : Frame) (hist : HistMap) : HistMap :=
  fun y x => PatchesHistory.insert S (hist y x) (f y x) (smap y x)

/-- Error-propagating map over a list, stopping at the first failure. -/
def mapE {α β ε : Type} (f : α → Except ε β) : List α → Except ε (List β)
  | [] => .ok []
  | a :: l =>
    match f a with
    | .error e => .error e
    | .ok b =>
      match mapE f l with
      | .error e => .error e
      | .ok bs => .ok (b :: bs)

/-- Aggregation of the whole history table into a background image of `H`
rows and `W` columns; fails if any region holds no candidate. -/
def aggregateImage (H W : Nat) (hist : HistMap) : Except AggError (List (List Pix)) :=
  mapE (fun y => mapE (fun x => PatchesHistory.median (hist y x)) (List.range W))
    (List.range H)

/-! ## The processing loop (src lines 214-269)

The loop iterates a cursor over the frame vector with guard `it != end`.
The body instantiates the frame difference on the first frame, always runs
`fdiff->process`, and on the first frame advances the cursor once in the
body (`++it`) before `continue`; the loop header advances it once more.
Subsequent frames are filtered and inserted, and under visualization a
preview background is additionally computed from the current history. -/

/-- Runtime failures of the processing loop. -/
inductive RunError where
  | fuelExhausted
  | iteratorOutOfRange
deriving DecidableEq, Repr

/-- The loop state: cursor position, first-frame flag, the frame-difference
state, the persistent probability-map and filtered-map buffers, the history,
and the previews computed when visualization is enabled. -/
structure LoopState where
  pos : Nat
  firstFrame : Bool
  fd : Option Frame
  raw : Option RawMap
  filtered : Option RawMap
  hist : HistMap
  previews : List (Except AggError (List (List Pix)))

/-- The state before entering the loop: cursor at the start, first-frame flag
set, no difference state, empty buffers and histories. -/
def initState : LoopState :=
  { pos := 0, firstFrame := true, fd := none, raw := none, filtered := none,
    hist := fun _ _ => [], previews := [] }

/-- One iteration body of the processing loop on the frame under the cursor
(src lines 222-269).  On the first frame the cursor advances by two (the
in-body increment plus the loop-header increment); otherwise by one. -/
def body (S K H W : Nat) (viz : Bool) (st : LoopState) (f : Frame) : LoopState :=
  let fd0 := if st.firstFrame then none else st.fd
  let pr := fdProcess fd0 f
  let raw := match pr.2 with
    | some m => some m
    | none => st.raw
  if st.firstFrame then
    { st with pos := st.pos + 2, firstFrame := false, fd := pr.1, raw := raw }
  else
    let filtered := match raw with
      | some m => some (motionFilter K H W m)
      | none => st.filtered
    let hist := insertAll S (filtered.getD (fun _ _ => 0)) f st.hist
    { pos := st.pos + 1, firstFrame := false, fd := pr.1, raw := raw,
      filtered := filtered, hist := hist,
      previews := if viz then st.previews ++ [aggregateImage H W hist] else st.previews }

/-- The processing loop: while the cursor differs from the end position,
fetch the frame under the cursor (out of range is the iterator running past
the end, undefined behavior in the source) and run the body. -/
def loop (S K H W : Nat) (viz : Bool) (frames : List Frame) :
    Nat → LoopState → Except RunError LoopState
  | 0, _ => .error .fuelExhausted
  | fuel + 1, st =>
    if st.pos = frames.length then .ok st
    else
      match frames.get? st.pos with
      | none => .error .iteratorOutOfRange
      | some f => loop S K H W viz frames fuel (body S K H W viz st f)

/-- Failures of a whole run. -/
inductive ProgError where
  | config (e : String)
  | run (e : RunError)
  | agg (e : AggError)
deriving DecidableEq, Repr

/-- A full processing run: the loop over all frames followed by the terminal
aggregation (src lines 222-281). -/
def runBackground (S K H W : Nat) (viz : Bool) (frames : List Frame) :
    Except ProgError (List (List Pix)) :=
  match loop S K H W viz frames (frames.length + 1) initState with
  | .error e => .error (.run e)
  | .ok st =>
    match aggregateImage H W st.hist with
    | .error e => .error (.agg e)
    | .ok bg => .ok bg

/-! ## Parameter extraction and validation (src lines 104-157) -/

/-- The command-line surface the driver consumes. -/
structure Options where
  inputGiven : Bool
  outputGiven : Bool
  sOpt : Option Int
  nOpt : Option Int
  defaultSet : Bool
  visualization : Bool

/-- Configuration failures raised before any frame is read. -/
inductive ConfigError where
  | missingInput
  | missingOutput
  | missingS
  | nonPositiveS
  | missingN
  | nonPositiveN
deriving DecidableEq, Repr

/-- Parameter extraction, mirroring src lines 104-146: the input and output
paths are demanded first; with the default flag the run takes `S = 19` and
`N = 3`; otherwise the S parameter must be present and positive, then the N
parameter must be present and positive. -/
def extractParams (o : Options) : Except ConfigError (Int × Int) :=
  if !o.inputGiven then .error .missingInput
  else if !o.outputGiven then .error .missingOutput
  else if o.defaultSet then .ok (19, 3)
  else
    match o.sOpt with
    | none => .error .missingS
    | some s =>
      if s < 1 then .error .nonPositiveS
      else
        match o.nOpt with
        | none => .error .missingN
        | some n =>
          if n < 1 then .error .nonPositiveN
          else .ok (s, n)

/-- Configuration errors rendered at the program boundary. -/
def configMessage (e : ConfigError) : String :=
  match e with
  | .missingInput => "You must provide the path of the input sequence!"
  | .missingOutput => "You must provide the path of the output folder!"
  | .missingS => "You must provide the S parameter!"
  | .nonPositiveS => "The S parameter must be positive!"
  | .missingN => "You must provide the N parameter!"
  | .nonPositiveN => "The N parameter must be positive!"

/-- The whole program on decoded frames of size `H` by `W`: extract and
validate the parameters, then process; an extraction failure aborts before
any frame is touched. -/
def mainProgram (o : Options) (H W : Nat) (frames : List Frame) :
    Except ProgError (List (List Pix)) :=
  match extractParams o with
  | .error e => .error (.config (configMessage e))
  | .ok p =>
    runBackground p.1.toNat (kernelSize H W p.2.toNat) H W o.visualization frames

/-! ## Helper lemmas -/

/-- Setting the lowest bit of a natural number rounds it up to the nearest
odd value. -/
lemma lor_one_eq_oddifyUp (x : Nat) : x ||| 1 = oddifyUp x := by
  rw [oddifyUp]
  apply Nat.eq_of_testBit_eq
  intro i
  rw [Nat.testBit_lor]
  cases i with
  | zero =>
    simp only [Nat.testBit_zero]
    rcases Nat.mod_two_eq_zero_or_one x with h | h <;> simp [h] <;> omega
  | succ n =>
    have h1 : Nat.testBit 1 (n + 1) = false := by
      simp [Nat.testBit_succ]
    rw [h1, Bool.or_false]
    rcases Nat.mod_two_eq_zero_or_one x with h | h
    · simp only [h, if_neg (by omega : ¬(0 : Nat) = 1)]
      rw [Nat.testBit_succ, Nat.testBit_succ]
      congr 1
      omega
    · simp [h]

/-- Rounding up to the nearest odd value yields an odd value. -/
lemma oddifyUp_odd (x : Nat) : oddifyUp x % 2 = 1 := by
  unfold oddifyUp; split <;> omega

/-- Rounding up to the nearest odd value yields a positive value. -/
lemma oddifyUp_pos (x : Nat) : 1 ≤ oddifyUp x := by
  unfold oddifyUp; split <;> omega

/-- The kernel size of the source is the round-up of `min H W / N` to odd. -/
lemma kernelSize_eq (H W N : Nat) : kernelSize H W N = oddifyUp (min H W / N) :=
  lor_one_eq_oddifyUp (min H W / N)

/-! ## Claim theorems -/

/-- C3 counterexample: at `H = 2`, `W = 2`, `N = 1` the source computes the
kernel size `(min 2 2 / 1) | 1 = 3`, while the claimed formula
`max 1 (oddify-down (min 2 2 / 1))` yields `1`. -/
theorem c3_kernel_formula_counterexample :
    kernelSize 2 2 1 = 3 ∧ kernelSizeClaim 2 2 1 = 1 ∧
      kernelSize 2 2 1 ≠ kernelSizeClaim 2 2 1 := by
  refine ⟨rfl, rfl, ?_⟩
  decide

/-- C3 (amended): for every frame height `H ≥ 1`, width `W ≥ 1` and
parameter `N ≥ 1`, the smoothing window size equals `min H W / N` with its
lowest bit set to `1`, i.e. `min H W / N` rounded up (not down) to the
nearest odd value; in particular it is at least `1`. -/
theorem c3_kernel_size_rounds_up (H W N : Nat)
    (hH : 1 ≤ H) (hW : 1 ≤ W) (hN : 1 ≤ N) :
    kernelSize H W N = oddifyUp (min H W / N) ∧ 1 ≤ kernelSize H W N := by
  refine ⟨kernelSize_eq H W N, ?_⟩
  rw [kernelSize_eq]
  exact oddifyUp_pos _

/-- C3 witness: the amended statement evaluated at `H = 4`, `W = 6`,
`N = 2`, where the window size is `(2 | 1) = 3`. -/
theorem c3_kernel_size_rounds_up_witness :
    kernelSize 4 6 2 = oddifyUp (min 4 6 / 2) ∧ 1 ≤ kernelSize 4 6 2 :=
  c3_kernel_size_rounds_up 4 6 2 (by decide) (by decide) (by decide)

/-- C7: for every frame height `H ≥ 1`, width `W ≥ 1` and parameter
`N ≥ 1`, the derived smoothing window size is odd and at least `1`. -/
theorem c7_kernel_well_formed (H W N : Nat)
    (hH : 1 ≤ H) (hW : 1 ≤ W) (hN : 1 ≤ N) :
    kernelSize H W N % 2 = 1 ∧ 1 ≤ kernelSize H W N := by
  rw [kernelSize_eq]
  exact ⟨oddifyUp_odd _, oddifyUp_pos _⟩

/-- C7 witness: the kernel size at `H = 480`, `W = 640`, `N = 3` is odd and
positive. -/
theorem c7_kernel_well_formed_witness :
    kernelSize 480 640 3 % 2 = 1 ∧ 1 ≤ kernelSize 480 640 3 :=
  c7_kernel_well_formed 480 640 3 (by decide) (by decide) (by decide)

/-- C6: a run that reaches processing never carries `S < 1` or `N < 1`
(extraction only succeeds with both parameters at least `1`), and whenever a
required parameter is missing, or the S or N parameter of a non-default run
is below `1`, extraction fails and the whole program aborts with that
configuration error uniformly in the frames, i.e. before any frame is
processed. -/
theorem c6_configuration_validated (o : Options) :
    (∀ s n, extractParams o = .ok (s, n) → 1 ≤ s ∧ 1 ≤ n) ∧
    ((!o.inputGiven) = true ∨ (!o.outputGiven) = true ∨
        (o.defaultSet = false ∧ (o.sOpt = none ∨ o.nOpt = none ∨
          (∃ s, o.sOpt = some s ∧ s < 1) ∨ (∃ n, o.nOpt = some n ∧ n < 1))) →
      ∃ e, extractParams o = .error e ∧
        ∀ (H W : Nat) (frames : List Frame),
          mainProgram o H W frames = .error (.config (configMessage e))) := by
  constructor
  · intro s n hok
    unfold extractParams at hok
    split at hok
    · exact Except.noConfusion hok
    split at hok
    · exact Except.noConfusion hok
    split at hok
    · simp only [Except.ok.injEq, Prod.mk.injEq] at hok
      omega
    split at hok
    · exact Except.noConfusion hok
    split at hok
    · exact Except.noConfusion hok
    split at hok
    · exact Except.noConfusion hok
    split at hok
    · exact Except.noConfusion hok
    simp only [Except.ok.injEq, Prod.mk.injEq] at hok
    rename_i hs _ _ hn
    omega
  · intro hbad
    have herr : ∃ e, extractParams o = .error e := by
      obtain ⟨gi, go, so, no, d, v⟩ := o
      rcases hbad with h | h | ⟨hdef, hcase⟩
      · cases gi
        · exact ⟨.missingInput, rfl⟩
        · simp at h
      · cases gi
        · exact ⟨.missingInput, rfl⟩
        cases go
        · exact ⟨.missingOutput, rfl⟩
        · simp at h
      · cases hdef
        cases gi
        · exact ⟨.missingInput, rfl⟩
        cases go
        · exact ⟨.missingOutput, rfl⟩
        rcases hcase with h | h | ⟨s0, hs0, hlt⟩ | ⟨n0, hn0, hlt⟩
        · cases h; exact ⟨.missingS, rfl⟩
        · cases h
          cases so with
          | none => exact ⟨.missingS, rfl⟩
          | some s1 =>
            dsimp only [extractParams]
            by_cases hs1 : s1 < 1
            · rw [if_pos hs1]; exact ⟨_, rfl⟩
            · rw [if_neg hs1]; exact ⟨_, rfl⟩
        · cases hs0
          dsimp only [extractParams]
          rw [if_pos hlt]; exact ⟨_, rfl⟩
        · cases hn0
          cases so with
          | none => exact ⟨.missingS, rfl⟩
          | some s1 =>
            dsimp only [extractParams]
            by_cases hs1 : s1 < 1
            · rw [if_pos hs1]; exact ⟨_, rfl⟩
            · rw [if_neg hs1, if_pos hlt]; exact ⟨_, rfl⟩
    obtain ⟨e, he⟩ := herr
    refine ⟨e, he, ?_⟩
    intro H W frames
    rw [mainProgram, he]

/-- C6 witness: with the S parameter supplied as `0` and no default flag,
extraction fails and the program aborts for any frames, here the empty
sequence. -/
theorem c6_configuration_validated_witness :
    (∀ s n, extractParams ⟨true, true, some 0, some 2, false, false⟩ = .ok (s, n) →
        1 ≤ s ∧ 1 ≤ n) ∧
    ((!(true : Bool)) = true ∨ (!(true : Bool)) = true ∨
        ((false : Bool) = false ∧ ((some (0 : Int) = none) ∨ (some (2 : Int) = none) ∨
          (∃ s, some (0 : Int) = some s ∧ s < 1) ∨ (∃ n, some (2 : Int) = some n ∧ n < 1))) →
      ∃ e, extractParams ⟨true, true, some 0, some 2, false, false⟩ = .error e ∧
        ∀ (H W : Nat) (frames : List Frame),
          mainProgram ⟨true, true, some 0, some 2, false, false⟩ H W frames =
            .error (.config (configMessage e))) :=
  c6_configuration_validated ⟨true, true, some 0, some 2, false, false⟩

/-- C10: with the default flag set (and the always-required input and output
paths present), extraction yields `S = 19` and `N = 3` regardless of any
s-parameter or n-parameter values supplied, so the `S ≥ 1` and `N ≥ 1`
checks never run: even values below `1` are accepted, and the run uses
`S = 19` and `N = 3`. -/
theorem c10_default_overrides (sOpt nOpt : Option Int) (viz : Bool) :
    extractParams ⟨true, true, sOpt, nOpt, true, viz⟩ = .ok (19, 3) ∧
    ∀ (H W : Nat) (frames : List Frame),
      mainProgram ⟨true, true, sOpt, nOpt, true, viz⟩ H W frames =
        runBackground 19 (kernelSize H W 3) H W viz frames := by
  refine ⟨rfl, fun H W frames => rfl⟩

/-- Error-propagating map fails as soon as any element fails. -/
lemma mapE_error_of_mem {α β ε : Type} (f : α → Except ε β) (l : List α) (a : α)
    (ha : a ∈ l) (e : ε) (he : f a = .error e) : ∃ e2, mapE f l = .error e2 := by
  induction l with
  | nil => cases ha
  | cons b l ih =>
    cases hfb : f b with
    | error eb => exact ⟨eb, by rw [mapE, hfb]⟩
    | ok vb =>
      rcases List.mem_cons.mp ha with rfl | hmem
      · rw [hfb] at he; exact Except.noConfusion he
      · obtain ⟨e2, h2⟩ := ih hmem
        exact ⟨e2, by rw [mapE, hfb, h2]⟩

/-- C9: the claim that the cursor always stays within bounds fails on a
sequence of exactly one frame.  On `[f]` the first-frame branch advances the
cursor to the end and the header increment advances it once more, so the
`it != end` guard never fires: the cursor stands at `2` with the end at `1`,
and the next iteration reads past the end of the frame vector (undefined
behavior in the source, an out-of-range error in the model). -/
theorem c9_iterator_overruns_one_frame (S K H W : Nat) (viz : Bool) (f : Frame) :
    (body S K H W viz initState f).pos = 2 ∧ List.length [f] = 1 ∧
      loop S K H W viz [f] (List.length [f] + 1) initState =
        .error .iteratorOutOfRange := by
  exact ⟨rfl, rfl, rfl⟩

/-- C5: aggregation of a region holding zero candidates is an EmptyHistory
error, and the whole-image terminal aggregation then fails with that error
instead of producing a background; a run on a two-frame sequence (which
inserts nothing) fails exactly this way. -/
theorem c5_empty_history_fails (H W : Nat) (hist : HistMap) (y x : Nat)
    (hy : y < H) (hx : x < W) (he : hist y x = []) :
    PatchesHistory.median (hist y x) = .error .emptyHistory ∧
      aggregateImage H W hist = .error .emptyHistory ∧
      ∀ (S K : Nat) (viz : Bool) (f0 f1 : Frame),
        runBackground S K 1 1 viz [f0, f1] = .error (.agg .emptyHistory) := by
  have hmed : PatchesHistory.median (hist y x) = .error .emptyHistory := by
    rw [he]; rfl
  refine ⟨hmed, ?_, fun S K viz f0 f1 => rfl⟩
  have hrow : ∃ e2, mapE (fun x => PatchesHistory.median (hist y x)) (List.range W) =
      .error e2 :=
    mapE_error_of_mem _ _ x (List.mem_range.mpr hx) _ hmed
  obtain ⟨e2, hrow⟩ := hrow
  have himg := mapE_error_of_mem
    (fun y => mapE (fun x => PatchesHistory.median (hist y x)) (List.range W))
    (List.range H) y (List.mem_range.mpr hy) e2 hrow
  obtain ⟨e3, himg⟩ := himg
  cases e3
  exact himg

/-- C5 witness: a one-pixel image whose single region holds nothing. -/
theorem c5_empty_history_fails_witness :
    PatchesHistory.median ((fun _ _ => ([] : List (Cand Pix))) 0 0) =
        .error .emptyHistory ∧
      aggregateImage 1 1 (fun _ _ => []) = .error .emptyHistory ∧
      ∀ (S K : Nat) (viz : Bool) (f0 f1 : Frame),
        runBackground S K 1 1 viz [f0, f1] = .error (.agg .emptyHistory) :=
  c5_empty_history_fails 1 1 (fun _ _ => []) 0 0 (by decide) (by decide) rfl

/-- Equality of loop states on everything except the visualization
previews. -/
def sameCore (a b : LoopState) : Prop :=
  a.pos = b.pos ∧ a.firstFrame = b.firstFrame ∧ a.fd = b.fd ∧ a.raw = b.raw ∧
    a.filtered = b.filtered ∧ a.hist = b.hist

/-- `sameCore` lifted to loop results: equal errors, or core-equal states. -/
def coreRel : Except RunError LoopState → Except RunError LoopState → Prop
  | .ok a, .ok b => sameCore a b
  | .error e1, .error e2 => e1 = e2
  | _, _ => False

/-- The loop body preserves core equality whatever the two visualization
flags are: the flag only touches the previews. -/
lemma body_sameCore (S K H W : Nat) (v1 v2 : Bool) (f : Frame) {a b : LoopState}
    (h : sameCore a b) : sameCore (body S K H W v1 a f) (body S K H W v2 b f) := by
  obtain ⟨p1, ff1, fd1, r1, fl1, h1, pv1⟩ := a
  obtain ⟨p2, ff2, fd2, r2, fl2, h2, pv2⟩ := b
  obtain ⟨hp, hff, hfd, hr, hfl, hh⟩ := h
  dsimp only at hp hff hfd hr hfl hh
  subst hp hff hfd hr hfl hh
  unfold body sameCore
  cases ff1 <;> exact ⟨rfl, rfl, rfl, rfl, rfl, rfl⟩

/-- The whole loop preserves core equality across visualization flags. -/
lemma loop_coreRel (S K H W : Nat) (v1 v2 : Bool) (frames : List Frame) :
    ∀ (fuel : Nat) (a b : LoopState), sameCore a b →
      coreRel (loop S K H W v1 frames fuel a) (loop S K H W v2 frames fuel b) := by
  intro fuel
  induction fuel with
  | zero => intro a b h; exact rfl
  | succ n ih =>
    intro a b h
    have hp : a.pos = b.pos := h.1
    unfold loop
    rw [hp]
    by_cases hend : b.pos = frames.length
    · rw [if_pos hend, if_pos hend]
      exact h
    · rw [if_neg hend, if_neg hend]
      cases hget : frames.get? b.pos with
      | none => exact rfl
      | some f => exact ih _ _ (body_sameCore S K H W v1 v2 f h)

/-- C8: for a fixed frame sequence and fixed parameters, the run with
visualization enabled and the run with it disabled produce the identical
final background (or the identical failure); likewise for whole program
invocations whose options differ only in the visualization flag. -/
theorem c8_visualization_is_pure_observer (S K H W : Nat) (frames : List Frame) :
    runBackground S K H W true frames = runBackground S K H W false frames ∧
      ∀ (o : Options) (H2 W2 : Nat) (frames2 : List Frame),
        mainProgram { o with visualization := true } H2 W2 frames2 =
          mainProgram { o with visualization := false } H2 W2 frames2 := by
  have main : ∀ (S K H W : Nat) (frames : List Frame),
      runBackground S K H W true frames = runBackground S K H W false frames := by
    intro S K H W frames
    have h := loop_coreRel S K H W true false frames (frames.length + 1)
      initState initState ⟨rfl, rfl, rfl, rfl, rfl, rfl⟩
    unfold runBackground
    cases h1 : loop S K H W true frames (frames.length + 1) initState with
    | error e1 =>
      cases h2 : loop S K H W false frames (frames.length + 1) initState with
      | error e2 =>
        rw [h1, h2] at h
        have he : e1 = e2 := h
        rw [he]
      | ok b => rw [h1, h2] at h; cases h
    | ok a =>
      cases h2 : loop S K H W false frames (frames.length + 1) initState with
      | error e2 => rw [h1, h2] at h; cases h
      | ok b =>
        rw [h1, h2] at h
        have hs : sameCore a b := h
        dsimp only
        rw [hs.2.2.2.2.2]
  refine ⟨main S K H W frames, ?_⟩
  intro o H2 W2 frames2
  unfold mainProgram
  have hov : ∀ v, extractParams { o with visualization := v } = extractParams o :=
    fun v => rfl
  rw [hov true, hov false]
  cases hx : extractParams o with
  | error e => rfl
  | ok p => exact main _ _ _ _ _

/-- The reference pipeline: starting from a previous frame and a history
table, difference, filter and insert each listed frame in order, threading
the previous frame. -/
def pipelineFold (S K H W : Nat) : Frame → HistMap → List Frame → HistMap
  | _, hist, [] => hist
  | prev, hist, f :: rest =>
    pipelineFold S K H W f
      (insertAll S (motionFilter K H W (frameDiff prev f)) f hist) rest

/-- From any post-skip loop state (first-frame flag cleared, a previous
frame recorded) the loop consumes exactly the frames from the cursor to the
end and folds them into the history via difference, filter and insertion. -/
lemma loop_processes_tail (S K H W : Nat) (viz : Bool) (frames : List Frame) :
    ∀ (rest : List Frame) (fuel : Nat) (st : LoopState) (prev : Frame),
      st.firstFrame = false → st.fd = some prev →
      frames.drop st.pos = rest → st.pos ≤ frames.length →
      rest.length + 1 ≤ fuel →
      ∃ st2, loop S K H W viz frames fuel st = .ok st2 ∧
        st2.hist = pipelineFold S K H W prev st.hist rest := by
  intro rest
  induction rest with
  | nil =>
    intro fuel st prev hff hfd hdrop hle hfuel
    have hpos : st.pos = frames.length := by
      have := List.drop_eq_nil_iff_le.mp hdrop
      omega
    cases fuel with
    | zero => omega
    | succ m =>
      refine ⟨st, ?_, rfl⟩
      unfold loop
      rw [if_pos hpos]
  | cons f rest' ih =>
    intro fuel st prev hff hfd hdrop hle hfuel
    have hget : frames.get? st.pos = some f := by
      have h0 : (frames.drop st.pos).get? 0 = some f := by rw [hdrop]; rfl
      rw [List.get?_drop] at h0
      simpa using h0
    have hlt : st.pos < frames.length := by
      rcases Nat.lt_or_ge st.pos frames.length with h | h
      · exact h
      · rw [List.drop_eq_nil_iff_le.mpr h] at hdrop
        exact List.noConfusion hdrop
    have hdrop' : frames.drop (st.pos + 1) = rest' := by
      have h1 : frames.drop (st.pos + 1) = (frames.drop st.pos).drop 1 := by
        rw [List.drop_drop]
      rw [h1, hdrop]
      rfl
    have hbody : body S K H W viz st f =
        { pos := st.pos + 1, firstFrame := false, fd := some f,
          raw := some (frameDiff prev f),
          filtered := some (motionFilter K H W (frameDiff prev f)),
          hist := insertAll S (motionFilter K H W (frameDiff prev f)) f st.hist,
          previews := if viz then
              st.previews ++ [aggregateImage H W
                (insertAll S (motionFilter K H W (frameDiff prev f)) f st.hist)]
            else st.previews } := by
      unfold body
      rw [hff, hfd]
      rfl
    cases fuel with
    | zero => simp at hfuel
    | succ m =>
      have hfuel' : rest'.length + 1 ≤ m := by
        simp only [List.length_cons] at hfuel
        omega
      have hstep : loop S K H W viz frames (m + 1) st =
          loop S K H W viz frames m (body S K H W viz st f) := by
        conv_lhs => rw [loop]
        rw [if_neg (by omega), hget]
      rw [hstep, hbody]
      obtain ⟨st2, hok, hhist⟩ := ih m
        { pos := st.pos + 1, firstFrame := false, fd := some f,
          raw := some (frameDiff prev f),
          filtered := some (motionFilter K H W (frameDiff prev f)),
          hist := insertAll S (motionFilter K H W (frameDiff prev f)) f st.hist,
          previews := if viz then
              st.previews ++ [aggregateImage H W
                (insertAll S (motionFilter K H W (frameDiff prev f)) f st.hist)]
            else st.previews }
        f rfl rfl hdrop' hlt hfuel'
      refine ⟨st2, hok, ?_⟩
      rw [hhist]
      rfl

/-- A uniform black test frame. -/
def cf0 : Frame := fun _ _ => ⟨0, 0, 0⟩

/-- A uniform test frame with channel values 7. -/
def cf1 : Frame := fun _ _ => ⟨7, 7, 7⟩

/-- A uniform test frame with channel values 9. -/
def cf2 : Frame := fun _ _ => ⟨9, 9, 9⟩

/-- The history of one region in a loop result (empty on failure). -/
def histAt (r : Except RunError LoopState) (y x : Nat) : List (Cand Pix) :=
  match r with
  | .ok st => st.hist y x
  | .error _ => []

/-- C2 counterexample: on the three-frame sequence `[cf0, cf1, cf2]` of
one-pixel frames (with `S = 3`, `K = 1`), the claim would require the second
frame `cf1` to be filtered and inserted, yet after the full run the single
region's history holds exactly one candidate, carrying the third frame's
value; no held candidate carries `cf1`'s value `(7, 7, 7)`.  The in-body
cursor increment of the first-frame branch skips the second frame
entirely. -/
theorem c2_second_frame_skipped_counterexample :
    histAt (loop 3 1 1 1 false [cf0, cf1, cf2] 4 initState) 0 0 =
        [⟨⟨9, 9, 9⟩, 1⟩] ∧
      ¬ (⟨7, 7, 7⟩ : Pix) ∈
        (histAt (loop 3 1 1 1 false [cf0, cf1, cf2] 4 initState) 0 0).map Cand.val := by
  decide

/-- C2 (amended): after processing only the first frame of any sequence,
every region's history is empty; and on a full run over `f0 :: f1 :: rest`,
the first frame only initializes the frame difference, the second frame is
skipped entirely by the double cursor increment, and exactly the frames of
`rest` (the third frame onward) are each run through the frame difference
(against the previously processed frame, starting from `f0`), smoothed by
the filter, and inserted into every region's history. -/
theorem c2_first_frames_skipped_then_all_inserted (S K H W : Nat) (viz : Bool)
    (f0 f1 : Frame) (rest : List Frame) :
    (∀ y x, (body S K H W viz initState f0).hist y x = []) ∧
    ∃ st2, loop S K H W viz (f0 :: f1 :: rest) ((f0 :: f1 :: rest).length + 1) initState =
        .ok st2 ∧
      st2.hist = pipelineFold S K H W f0 (fun _ _ => []) rest := by
  refine ⟨fun y x => rfl, ?_⟩
  have h1 : loop S K H W viz (f0 :: f1 :: rest) ((f0 :: f1 :: rest).length + 1) initState =
      loop S K H W viz (f0 :: f1 :: rest) (rest.length + 2)
        (body S K H W viz initState f0) := by
    conv_lhs => rw [loop]
    rw [if_neg (by simp [initState])]
    rfl
  obtain ⟨st2, hok, hhist⟩ := loop_processes_tail S K H W viz (f0 :: f1 :: rest) rest
    (rest.length + 2) (body S K H W viz initState f0) f0 rfl rfl rfl
    (by simp [body, initState]) (by omega)
  exact ⟨st2, h1.trans hok, hhist⟩

lemma le_foldr_max (l : List Nat) (a : Nat) (ha : a ∈ l) : a ≤ l.foldr max 0 := by
  induction l with
  | nil => cases ha
  | cons b t ih =>
    rcases List.mem_cons.mp ha with rfl | hmem
    · exact le_max_left _ _
    · exact le_trans (ih hmem) (le_max_right _ _)

lemma foldr_max_mem (l : List Nat) (hne : l ≠ []) : l.foldr max 0 ∈ l := by
  induction l with
  | nil => exact absurd rfl hne
  | cons b t ih =>
    cases t with
    | nil => simp
    | cons c t2 =>
      rcases le_total ((c :: t2).foldr max 0) b with h | h
      · simp only [List.foldr_cons] at *
        rw [max_eq_left h]
        exact List.mem_cons_self _ _
      · simp only [List.foldr_cons] at *
        rw [max_eq_right h]
        exact List.mem_cons_of_mem _ (ih (by simp))

lemma score_le_worstScore {α : Type} (h : List (Cand α)) (c : Cand α) (hc : c ∈ h) :
    c.score ≤ worstScore h :=
  le_foldr_max _ _ (List.mem_map_of_mem Cand.score hc)

lemma worstScore_attained {α : Type} (h : List (Cand α)) (hne : h ≠ []) :
    ∃ c ∈ h, c.score = worstScore h := by
  have hmem : worstScore h ∈ h.map Cand.score :=
    foldr_max_mem _ (by simp [hne])
  obtain ⟨c, hc, hcs⟩ := List.mem_map.mp hmem
  exact ⟨c, hc, hcs⟩

lemma mem_heldScores {α : Type} (h : List (Cand α)) (y : Nat) :
    y ∈ heldScores h ↔ ∃ c ∈ h, c.score = y := by
  simp [heldScores, List.mem_map]


lemma heldScores_append_one {α : Type} (h : List (Cand α)) (c : Cand α) :
    heldScores (h ++ [c]) = c.score ::ₘ heldScores h := by
  simp only [heldScores, List.map_append, List.map_cons, List.map_nil]
  rw [Multiset.cons_coe, Multiset.coe_eq_coe]
  exact List.perm_append_singleton _ _

lemma insert_isLowest {α : Type} (S : Nat) (h : List (Cand α)) (obs : Multiset Nat)
    (v : α) (s : Nat) (hinv : IsLowest S (heldScores h) obs) :
    IsLowest S (heldScores (PatchesHistory.insert S h v s)) (s ::ₘ obs) := by
  obtain ⟨hle, hcard, hdom⟩ := hinv
  have hcard_held : Multiset.card (heldScores h) = h.length := by
    simp [heldScores]
  unfold PatchesHistory.insert
  by_cases hlen : h.length < S
  · rw [if_pos hlen]
    have hobs_card : Multiset.card obs = h.length := by
      rw [hcard_held, Nat.min_def] at hcard
      split at hcard <;> omega
    have heq : heldScores h = obs :=
      Multiset.eq_of_le_of_card_le hle (by rw [hcard_held, hobs_card])
    rw [heldScores_append_one]
    dsimp only
    rw [heq]
    refine ⟨le_refl _, ?_, ?_⟩
    · rw [Multiset.card_cons, Nat.min_def]
      split <;> omega
    · intro x hx y hy
      rw [tsub_self] at hx
      exact absurd hx (Multiset.not_mem_zero x)
  · rw [if_neg hlen]
    have hS : h.length = S ∧ S ≤ Multiset.card obs := by
      rw [hcard_held, Nat.min_def] at hcard
      split at hcard <;> omega
    by_cases hs : s < worstScore h
    · rw [if_pos hs]
      have hne : h ≠ [] := by
        intro h0
        subst h0
        simp [worstScore] at hs
      obtain ⟨cmax, hcmem, hcs⟩ := worstScore_attained h hne
      have hp : (fun c => c.score == worstScore h) cmax = true := by simp [hcs]
      obtain ⟨a, l₁, l₂, hl₁, hpa, hsplit, herase⟩ :=
        @List.exists_of_eraseP (Cand α) (fun c => c.score == worstScore h) h cmax hcmem hp
      have has : a.score = worstScore h := by simpa using hpa
      set w := worstScore h with hw
      set M : Multiset Nat := ↑(l₁.map Cand.score) + ↑(l₂.map Cand.score) with hM
      have hheld : heldScores h = w ::ₘ M := by
        rw [hsplit]
        simp only [heldScores, List.map_append, List.map_cons]
        rw [← Multiset.coe_add, ← Multiset.cons_coe, ← has, Multiset.add_cons]
      have herase_scores :
          heldScores (h.eraseP (fun c => c.score == w) ++ [⟨v, s⟩]) = s ::ₘ M := by
        rw [herase, heldScores_append_one]
        dsimp only
        congr 1
        simp only [heldScores, List.map_append, hM]
        rw [← Multiset.coe_add]
      rw [herase_scores]
      have hMle : M ≤ heldScores h := by
        rw [hheld]
        exact Multiset.le_cons_self M w
      have hMobs : M ≤ obs := le_trans hMle hle
      refine ⟨Multiset.cons_le_cons s hMobs, ?_, ?_⟩
      · rw [Multiset.card_cons, Multiset.card_cons]
        have hcM : Multiset.card M + 1 = S := by
          have hcc := congrArg Multiset.card hheld
          rw [Multiset.card_cons, hcard_held] at hcc
          omega
        rw [Nat.min_def]
        split <;> omega
      · intro x hx y hy
        have hx' : x ∈ obs - M := by
          have hcount : (s ::ₘ obs) - (s ::ₘ M) = obs - M := by
            ext a
            rw [Multiset.count_sub, Multiset.count_cons, Multiset.count_cons,
              Multiset.count_sub]
            by_cases ha : a = s
            · subst ha; simp
            · simp [ha]
          rwa [hcount] at hx
        have hobsM : obs - M = (obs - heldScores h) + {w} := by
          ext a
          rw [Multiset.count_add, Multiset.count_sub, Multiset.count_sub,
            Multiset.count_singleton]
          have h1 : Multiset.count a (heldScores h) =
              Multiset.count a M + (if a = w then 1 else 0) := by
            rw [hheld, Multiset.count_cons]
          have h2 : Multiset.count a (heldScores h) ≤ Multiset.count a obs :=
            Multiset.le_iff_count.mp hle a
          by_cases ha : a = w
          · subst ha
            simp only [if_pos rfl] at h1 ⊢
            omega
          · simp only [if_neg ha] at h1 ⊢
            omega
        rw [hobsM] at hx'
        rcases Multiset.mem_add.mp hx' with hxo | hxw
        · rcases Multiset.mem_cons.mp hy with rfl | hyM
          · have hwmem : w ∈ heldScores h := by
              rw [hheld]
              exact Multiset.mem_cons_self w M
            exact le_trans (le_of_lt hs) (hdom x hxo w hwmem)
          · have hyh : y ∈ heldScores h := by
              rw [hheld]
              exact Multiset.mem_cons_of_mem hyM
            exact hdom x hxo y hyh
        · have hxw' : x = w := Multiset.mem_singleton.mp hxw
          subst hxw'
          rcases Multiset.mem_cons.mp hy with rfl | hyM
          · exact le_of_lt hs
          · have hyh : y ∈ heldScores h := by
              rw [hheld]
              exact Multiset.mem_cons_of_mem hyM
            obtain ⟨c, hch, hcs2⟩ := (mem_heldScores h y).mp hyh
            exact hcs2 ▸ score_le_worstScore h c hch
    · rw [if_neg hs]
      push_neg at hs
      refine ⟨le_trans hle (Multiset.le_cons_self obs s), ?_, ?_⟩
      · rw [Multiset.card_cons, hcard_held, Nat.min_def]
        split <;> omega
      · intro x hx y hy
        have hsub : (s ::ₘ obs) - heldScores h = s ::ₘ (obs - heldScores h) := by
          ext a
          rw [Multiset.count_sub, Multiset.count_cons, Multiset.count_cons,
            Multiset.count_sub]
          have h2 := Multiset.le_iff_count.mp hle a
          by_cases ha : a = s
          · subst ha
            simp only [if_pos rfl]
            omega
          · simp only [if_neg ha]
            omega
        rw [hsub] at hx
        rcases Multiset.mem_cons.mp hx with rfl | hxo
        · obtain ⟨c, hch, hcs2⟩ := (mem_heldScores h y).mp hy
          exact le_trans (hcs2 ▸ score_le_worstScore h c hch) hs
        · exact hdom x hxo y hy


lemma foldl_insert_isLowest {α : Type} (S : Nat) :
    ∀ (ps : List (α × Nat)) (h : List (Cand α)) (obs : Multiset Nat),
      IsLowest S (heldScores h) obs →
      IsLowest S
        (heldScores (ps.foldl (fun h p => PatchesHistory.insert S h p.1 p.2) h))
        (obs + ↑(ps.map Prod.snd)) := by
  intro ps
  induction ps with
  | nil =>
    intro h obs hinv
    simpa using hinv
  | cons p ps ih =>
    intro h obs hinv
    have hstep := insert_isLowest S h obs p.1 p.2 hinv
    have hrec := ih (PatchesHistory.insert S h p.1 p.2) (p.2 ::ₘ obs) hstep
    have hms : obs + ↑((p :: ps).map Prod.snd) = (p.2 ::ₘ obs) + ↑(ps.map Prod.snd) := by
      rw [List.map_cons, ← Multiset.cons_coe, Multiset.add_cons, ← Multiset.cons_add]
    rw [List.foldl_cons, hms]
    exact hrec

/-- C1: after any sequence of insertions into one region's history, the
history holds at most `S` candidates and the multiset of held scores is
exactly the `S` (or fewer) lowest scores observed so far (sub-multiset of
the observed scores, of maximal size up to capacity, with every discarded
score dominating every held one); moreover, when the history is full, an
insertion with a score not strictly below the worst held score leaves the
history unchanged, and an insertion with a strictly lower score evicts
exactly the worst-scored candidate — the earliest-inserted one among ties —
and appends the new candidate. -/
theorem c1_history_capacity_and_eviction {α : Type} (S : Nat) (ps : List (α × Nat)) (v : α) (s : Nat) :
    (runInserts S ps).length ≤ S ∧
    IsLowest S (heldScores (runInserts S ps)) (obsScores ps) ∧
    ((runInserts S ps).length = S → worstScore (runInserts S ps) ≤ s →
      PatchesHistory.insert S (runInserts S ps) v s = runInserts S ps) ∧
    ((runInserts S ps).length = S → s < worstScore (runInserts S ps) →
      ∃ l₁ w l₂, runInserts S ps = l₁ ++ w :: l₂ ∧
        w.score = worstScore (runInserts S ps) ∧
        (∀ c ∈ l₁, c.score ≠ worstScore (runInserts S ps)) ∧
        PatchesHistory.insert S (runInserts S ps) v s = (l₁ ++ l₂) ++ [⟨v, s⟩]) := by
  have hbase : IsLowest S (heldScores ([] : List (Cand α))) 0 := by
    refine ⟨le_refl _, by simp [heldScores], ?_⟩
    intro x hx y hy
    simp [heldScores] at hy
  have hinv : IsLowest S (heldScores (runInserts S ps)) (obsScores ps) := by
    have hfold := foldl_insert_isLowest S ps [] 0 hbase
    rw [zero_add] at hfold
    exact hfold
  have hcard_held : Multiset.card (heldScores (runInserts S ps)) =
      (runInserts S ps).length := by
    simp [heldScores]
  refine ⟨?_, hinv, ?_, ?_⟩
  · have hc := hinv.2.1
    rw [hcard_held] at hc
    have hmin : min S (Multiset.card (obsScores ps)) ≤ S := Nat.min_le_left _ _
    omega
  · intro hfull hns
    unfold PatchesHistory.insert
    rw [if_neg (by omega), if_neg (by omega)]
  · intro hfull hs
    have hne : runInserts S ps ≠ [] := by
      intro h0
      rw [h0] at hs
      simp [worstScore] at hs
    obtain ⟨cmax, hcmem, hcs⟩ := worstScore_attained _ hne
    have hp : (cmax.score == worstScore (runInserts S ps)) = true := by simp [hcs]
    obtain ⟨a, l₁, l₂, hl₁, hpa, hsplit, herase⟩ :=
      @List.exists_of_eraseP (Cand α) (fun c => c.score == worstScore (runInserts S ps))
        (runInserts S ps) cmax hcmem hp
    refine ⟨l₁, a, l₂, hsplit, by simpa using hpa, ?_, ?_⟩
    · intro c hc
      have := hl₁ c hc
      simpa using this
    · unfold PatchesHistory.insert
      rw [if_neg (by omega), if_pos hs, herase]

/-- C1 witness: the single-outlier scenario with `S = 2`, scores
`[5, 3, 4]` observed and a strictly lower score `1` arriving at a full
history. -/
theorem c1_history_capacity_and_eviction_witness :
    (runInserts 2 [((10 : Nat), 5), (11, 3), (12, 4)]).length ≤ 2 ∧
    IsLowest 2 (heldScores (runInserts 2 [((10 : Nat), 5), (11, 3), (12, 4)]))
      (obsScores [((10 : Nat), 5), (11, 3), (12, 4)]) ∧
    ((runInserts 2 [((10 : Nat), 5), (11, 3), (12, 4)]).length = 2 →
      worstScore (runInserts 2 [((10 : Nat), 5), (11, 3), (12, 4)]) ≤ 1 →
      PatchesHistory.insert 2 (runInserts 2 [((10 : Nat), 5), (11, 3), (12, 4)]) 13 1 =
        runInserts 2 [((10 : Nat), 5), (11, 3), (12, 4)]) ∧
    ((runInserts 2 [((10 : Nat), 5), (11, 3), (12, 4)]).length = 2 →
      1 < worstScore (runInserts 2 [((10 : Nat), 5), (11, 3), (12, 4)]) →
      ∃ l₁ w l₂, runInserts 2 [((10 : Nat), 5), (11, 3), (12, 4)] = l₁ ++ w :: l₂ ∧
        w.score = worstScore (runInserts 2 [((10 : Nat), 5), (11, 3), (12, 4)]) ∧
        (∀ c ∈ l₁, c.score ≠ worstScore (runInserts 2 [((10 : Nat), 5), (11, 3), (12, 4)])) ∧
        PatchesHistory.insert 2 (runInserts 2 [((10 : Nat), 5), (11, 3), (12, 4)]) 13 1 =
          (l₁ ++ l₂) ++ [⟨13, 1⟩]) :=
  c1_history_capacity_and_eviction 2 [((10 : Nat), 5), (11, 3), (12, 4)] 13 1

lemma insertSorted_perm (x : Nat) (l : List Nat) :
    List.Perm (insertSorted x l) (x :: l) := by
  induction l with
  | nil => exact List.Perm.refl _
  | cons y t ih =>
    unfold insertSorted
    split
    · exact List.Perm.refl _
    · exact (List.Perm.cons y ih).trans (List.Perm.swap x y t)

lemma sortVals_perm (l : List Nat) : List.Perm (sortVals l) l := by
  induction l with
  | nil => exact List.Perm.refl _
  | cons a t ih =>
    have h1 : sortVals (a :: t) = insertSorted a (sortVals t) := rfl
    rw [h1]
    exact (insertSorted_perm a (sortVals t)).trans (List.Perm.cons a ih)

lemma sortVals_length (l : List Nat) : (sortVals l).length = l.length :=
  (sortVals_perm l).length_eq

lemma insertSorted_sorted (x : Nat) (l : List Nat) (h : List.Sorted (· ≤ ·) l) :
    List.Sorted (· ≤ ·) (insertSorted x l) := by
  induction l with
  | nil => exact List.sorted_singleton x
  | cons y t ih =>
    obtain ⟨hyb, hst⟩ := List.sorted_cons.mp h
    unfold insertSorted
    split
    · rename_i hxy
      rw [List.sorted_cons]
      refine ⟨?_, h⟩
      intro b hb
      rcases List.mem_cons.mp hb with rfl | hbt
      · exact hxy
      · exact le_trans hxy (hyb b hbt)
    · rename_i hxy
      push_neg at hxy
      rw [List.sorted_cons]
      refine ⟨?_, ih hst⟩
      intro b hb
      have hb2 : b ∈ x :: t := (insertSorted_perm x t).mem_iff.mp hb
      rcases List.mem_cons.mp hb2 with rfl | hbt
      · exact le_of_lt hxy
      · exact hyb b hbt

lemma sortVals_sorted (l : List Nat) : List.Sorted (· ≤ ·) (sortVals l) := by
  induction l with
  | nil => exact List.sorted_nil
  | cons a t ih => exact insertSorted_sorted a (sortVals t) ih

lemma sorted_countP_bounds (sl : List Nat) (hs : List.Sorted (· ≤ ·) sl) :
    ∀ (k : Nat) (hk : k < sl.length),
      sl.countP (fun x => x < sl.get ⟨k, hk⟩) ≤ k ∧
        k < sl.countP (fun x => x ≤ sl.get ⟨k, hk⟩) := by
  induction sl with
  | nil => intro k hk; simp at hk
  | cons a t ih =>
    intro k hk
    obtain ⟨hat, hst⟩ := List.sorted_cons.mp hs
    cases k with
    | zero =>
      constructor
      · show List.countP (fun x => decide (x < a)) (a :: t) ≤ 0
        rw [List.countP_cons_of_neg _ _ (by simp)]
        have ht0 : List.countP (fun x => decide (x < a)) t = 0 := by
          rw [List.countP_eq_zero]
          intro x hx
          have hax := hat x hx
          simp only [decide_eq_true_eq]
          omega
        omega
      · show 0 < List.countP (fun x => decide (x ≤ a)) (a :: t)
        rw [List.countP_cons_of_pos _ _ (by simp)]
        omega
    | succ k2 =>
      have hk2 : k2 < t.length := by
        simp only [List.length_cons] at hk
        omega
      obtain ⟨ihlt, ihle⟩ := ih hst k2 hk2
      constructor
      · show List.countP (fun x => decide (x < t.get ⟨k2, hk2⟩)) (a :: t) ≤ k2 + 1
        by_cases hpa : a < t.get ⟨k2, hk2⟩
        · rw [List.countP_cons_of_pos _ _ (by simpa using hpa)]
          omega
        · rw [List.countP_cons_of_neg _ _ (by simpa using hpa)]
          omega
      · show k2 + 1 < List.countP (fun x => decide (x ≤ t.get ⟨k2, hk2⟩)) (a :: t)
        have hmem : t.get ⟨k2, hk2⟩ ∈ t := t.get_mem _ _
        have haM : a ≤ t.get ⟨k2, hk2⟩ := hat _ hmem
        rw [List.countP_cons_of_pos _ _ (by simpa using haM)]
        omega


/-- The lower-median characterization of a value inside a list of channel
values. -/
def IsLowerMedian (m : Nat) (L : List Nat) : Prop :=
  m ∈ L ∧ L.countP (fun x => x < m) ≤ (L.length - 1) / 2 ∧
    (L.length - 1) / 2 < L.countP (fun x => x ≤ m) ∧
    (L.length % 2 = 0 →
      m = min ((sortVals L).getD (L.length / 2 - 1) 0) ((sortVals L).getD (L.length / 2) 0))

lemma channelMedian_isLowerMedian (L : List Nat) (hne : L ≠ []) :
    IsLowerMedian (channelMedian L) L := by
  have hlen : 0 < L.length := List.length_pos.mpr hne
  have hklt : (L.length - 1) / 2 < (sortVals L).length := by
    rw [sortVals_length]
    omega
  have hmed : channelMedian L = (sortVals L).get ⟨(L.length - 1) / 2, hklt⟩ := by
    rw [channelMedian, List.getD_eq_get _ _ hklt]
  have hperm := sortVals_perm L
  have hsorted := sortVals_sorted L
  obtain ⟨hlt, hle⟩ := sorted_countP_bounds (sortVals L) hsorted ((L.length - 1) / 2) hklt
  refine ⟨?_, ?_, ?_, ?_⟩
  · rw [hmed]
    exact hperm.mem_iff.mp ((sortVals L).get_mem _ _)
  · rw [hmed]
    calc L.countP (fun x => x < (sortVals L).get ⟨(L.length - 1) / 2, hklt⟩)
        = (sortVals L).countP (fun x => x < (sortVals L).get ⟨(L.length - 1) / 2, hklt⟩) :=
          (hperm.countP_eq _).symm
      _ ≤ (L.length - 1) / 2 := hlt
  · rw [hmed]
    calc (L.length - 1) / 2
        < (sortVals L).countP (fun x => x ≤ (sortVals L).get ⟨(L.length - 1) / 2, hklt⟩) := hle
      _ = L.countP (fun x => x ≤ (sortVals L).get ⟨(L.length - 1) / 2, hklt⟩) :=
          hperm.countP_eq _
  · intro heven
    have h2 : 2 ≤ L.length := by omega
    have hia : L.length / 2 - 1 < (sortVals L).length := by rw [sortVals_length]; omega
    have hib : L.length / 2 < (sortVals L).length := by rw [sortVals_length]; omega
    have hgle : (sortVals L).get ⟨L.length / 2 - 1, hia⟩ ≤
        (sortVals L).get ⟨L.length / 2, hib⟩ := by
      apply hsorted.rel_get_of_le
      simp only [Fin.mk_le_mk]
      omega
    rw [hmed, List.getD_eq_get _ _ hia, List.getD_eq_get _ _ hib, min_eq_left hgle]
    congr 1
    exact Fin.mk_eq_mk.mpr (by omega)

/-- C4: for every region holding at least one candidate, aggregation
returns a pixel whose each channel value is, independently, the lower median
of that channel's values across the held candidates: it occurs among the
values, at most `(n-1)/2` values are strictly below it, more than `(n-1)/2`
values are at or below it, and for an even-sized candidate set it equals the
lower (minimum) of the two middle values of the sorted list; in particular a
region holding channel values `[10, 20]` aggregates to `10`. -/
theorem c4_aggregation_channelwise_lower_median (h : List (Cand Pix)) (hne : h ≠ []) :
    (∃ p, PatchesHistory.median h = .ok p ∧
      IsLowerMedian p.r (h.map (fun c => c.val.r)) ∧
      IsLowerMedian p.g (h.map (fun c => c.val.g)) ∧
      IsLowerMedian p.b (h.map (fun c => c.val.b))) ∧
    PatchesHistory.median [⟨⟨10, 10, 10⟩, 0⟩, ⟨⟨20, 20, 20⟩, 0⟩] = .ok ⟨10, 10, 10⟩ := by
  constructor
  · have hmapne : ∀ f : Cand Pix → Nat, h.map f ≠ [] := by
      intro f hmap
      exact hne (List.map_eq_nil.mp hmap)
    cases h with
    | nil => exact absurd rfl hne
    | cons c t =>
      exact ⟨_, rfl, channelMedian_isLowerMedian _ (hmapne _),
        channelMedian_isLowerMedian _ (hmapne _), channelMedian_isLowerMedian _ (hmapne _)⟩
  · rfl


/-- C4 witness: the spec's median-tie scenario, a region holding channel
values `[10, 20]`. -/
theorem c4_aggregation_channelwise_lower_median_witness :
    (∃ p, PatchesHistory.median [⟨⟨10, 10, 10⟩, 0⟩, ⟨⟨20, 20, 20⟩, 0⟩] = .ok p ∧
      IsLowerMedian p.r (([⟨⟨10, 10, 10⟩, 0⟩, ⟨⟨20, 20, 20⟩, 0⟩] : List (Cand Pix)).map
        (fun c => c.val.r)) ∧
      IsLowerMedian p.g (([⟨⟨10, 10, 10⟩, 0⟩, ⟨⟨20, 20, 20⟩, 0⟩] : List (Cand Pix)).map
        (fun c => c.val.g)) ∧
      IsLowerMedian p.b (([⟨⟨10, 10, 10⟩, 0⟩, ⟨⟨20, 20, 20⟩, 0⟩] : List (Cand Pix)).map
        (fun c => c.val.b))) ∧
    PatchesHistory.median [⟨⟨10, 10, 10⟩, 0⟩, ⟨⟨20, 20, 20⟩, 0⟩] = .ok ⟨10, 10, 10⟩ :=
  c4_aggregation_channelwise_lower_median
    [⟨⟨10, 10, 10⟩, 0⟩, ⟨⟨20, 20, 20⟩, 0⟩] (by simp)

end LaBGenP
